import Mathlib

/-!
Verification of the hebbianRL repository's core numeric routines
(`src/support/external.py`) and the per-batch weight-update logic of the
training loop `RLnetwork` (`src/support/hebbianRL.py`), as a shallow
embedding.  Machine floats are modelled by exact arithmetic: `ℚ` where the
source only adds, multiplies, divides and compares, `ℝ` where it applies
the exponential.  numpy arrays become functions out of `Fin`-indexed types
(`Matrix (Fin rows) (Fin cols)`), and numpy operations that error on empty
axes are embedded over `Fin (n+1)` so the nonemptiness lives in the type.
-/

namespace HebRL

/-- Embeds `learningStep` (external.py:137-153).
`postNeurons_lr = postNeurons * (lr * disinhib[:,np.newaxis])` scales each
row of the post-synaptic activations by `lr` times that example's
modulation value; the result is
`np.dot(preNeurons.T, postNeurons_lr) - np.sum(postNeurons_lr, 0)*W`. -/
def learningStep (preNeurons : Matrix (Fin b) (Fin p) ℚ)
    (postNeurons : Matrix (Fin b) (Fin q) ℚ) (W : Matrix (Fin p) (Fin q) ℚ)
    (lr : ℚ) (disinhib : Fin b → ℚ) : Matrix (Fin p) (Fin q) ℚ :=
  let postNeurons_lr : Matrix (Fin b) (Fin q) ℚ :=
    Matrix.of fun i j => postNeurons i j * (lr * disinhib i)
  preNeurons.transpose * postNeurons_lr -
    Matrix.of fun i j => (∑ i', postNeurons_lr i' j) * W i j

/-- The spec's formula for the Hebbian update, written entrywise from the
spec sentence `ΔW = Pᵗ·(Q⊙(lr·mod)) − W⊙colsum(Q⊙(lr·mod))`. -/
def learningStep_specFormula (P : Matrix (Fin b) (Fin p) ℚ)
    (Q : Matrix (Fin b) (Fin q) ℚ) (W : Matrix (Fin p) (Fin q) ℚ)
    (lr : ℚ) (mod : Fin b → ℚ) : Matrix (Fin p) (Fin q) ℚ :=
  Matrix.of fun i j =>
    (∑ k, P k i * (Q k j * (lr * mod k))) - W i j * (∑ k, Q k j * (lr * mod k))

/-- Embeds `compute_dopa` (external.py:195-219): an all-zero vector is
written four times through boolean masks, in source order
`dHigh`, `dMid`, `dNeut`, `dLow`; a later masked store overwrites an
earlier one. -/
def compute_dopa [DecidableEq α] (bPredictActions bActions : Fin n → α)
    (bReward : Fin n → ℤ) (dHigh dMid dNeut dLow : ℚ) : Fin n → ℚ :=
  let d0 : Fin n → ℚ := fun _ => 0
  let d1 : Fin n → ℚ := fun i =>
    if bPredictActions i ≠ bActions i ∧ bReward i = 1 then dHigh else d0 i
  let d2 : Fin n → ℚ := fun i =>
    if bPredictActions i = bActions i ∧ bReward i = 1 then dMid else d1 i
  let d3 : Fin n → ℚ := fun i =>
    if bPredictActions i ≠ bActions i ∧ bReward i = 0 then dNeut else d2 i
  fun i => if bPredictActions i = bActions i ∧ bReward i = 0 then dLow else d3 i

/-- The per-image pixel sum `np.sum(images,1)` that `normalize`
(external.py:27) divides by, exactly as the source computes it: the raw
row sum, with no clipping or stabilization applied before the division. -/
def pixelSum (images : Matrix (Fin b) (Fin n) ℚ) (i : Fin b) : ℚ :=
  ∑ k, images i k

/-- Embeds `normalize` (external.py:14-27):
`(A-images.shape[1])*images/np.sum(images,1)[:,np.newaxis] + 1.`.
The embedding's field division is total (`x / 0 = 0`), where numpy emits
an invalid-value warning and produces NaN for `0/0`. -/
def normalize (images : Matrix (Fin b) (Fin n) ℚ) (A : ℚ) :
    Matrix (Fin b) (Fin n) ℚ :=
  Matrix.of fun i j => (A - (n : ℚ)) * images i j / pixelSum images i + 1

/-- The classifier names `checkClassifier` (external.py:360-369) accepts. -/
def legalClassifierValues : List String := ["neuronClass", "SVM", "actionNeurons"]

/-- Embeds `checkClassifier` (external.py:360-369): raises `ValueError`
with a message naming the illegal value when the classifier is not one of
the recognized strategies.  Raising is modelled as `Except.error`. -/
def checkClassifier (classifier : String) : Except String Unit :=
  if classifier ∈ legalClassifierValues then Except.ok ()
  else Except.error ("'" ++ classifier ++
    "' not a legal classifier value. Legal values are: 'neuronClass', 'SVM', 'actionNeurons'.")

/-- Embeds hebbianRL.py:46, the only classifier-dependent computation
`RLnetwork` performs before its training loop:
`train_class_layer = True if classifier!='bayesian' else False`.
No validation of the classifier name occurs anywhere before training. -/
def train_class_layer (classifier : String) : Bool := classifier != "bayesian"

/-- Embeds the post-training classifier dispatch (hebbianRL.py:272-275):
four independent equality tests each binding `allCMs, allPerf`.  `none`
models the case where no branch matches, in which `allCMs` is never bound
and the subsequent `return allCMs, ...` raises `NameError`. -/
def classifierDispatch (classifier : String) : Option String :=
  if classifier = "actionNeurons" then some "actionNeurons"
  else if classifier = "SVM" then some "SVM"
  else if classifier = "neuronClass" then some "neuronClass"
  else if classifier = "bayesian" then some "bayesian"
  else none

/-- The clipping floor of `np.clip(W, 1e-10, np.inf)` (hebbianRL.py:177-178). -/
def clipFloor : ℚ := 1 / 10 ^ 10

/-- Embeds `np.clip(x, 1e-10, np.inf)` on one entry; the upper bound
`np.inf` never binds. -/
def clip10 (x : ℚ) : ℚ := max clipFloor x

/-- Embeds the per-batch `W_in` update (hebbianRL.py:170-177): plain
addition of the delta when `e < nEpiCrit` or `lim_weights` is off,
otherwise a masked addition restricted to columns whose projected column
sum stays at most `940.801` and whose projected column minimum stays above
`0.2`; in both cases followed by `np.clip(W_in, 1e-10, np.inf)`.  The row
dimension is `p + 1` because `np.min(..., 0)` requires a nonempty axis. -/
def updateW_in (e nEpiCrit : ℕ) (lim_weights : Bool)
    (W_in dW_in : Matrix (Fin (p + 1)) (Fin q) ℚ) :
    Matrix (Fin (p + 1)) (Fin q) ℚ :=
  let Wnew := W_in + dW_in
  let W' : Matrix (Fin (p + 1)) (Fin q) ℚ :=
    if e < nEpiCrit ∨ lim_weights = false then Wnew
    else Matrix.of fun i j =>
      if (∑ i', Wnew i' j) ≤ 940.801 ∧
          0.2 < Finset.univ.inf' Finset.univ_nonempty (fun i' => Wnew i' j)
        then Wnew i j else W_in i j
  Matrix.of fun i j => clip10 (W' i j)

/-- Embeds the per-batch `W_act` update (hebbianRL.py:175,178):
`if train_class_layer: W_act += dW_act` then
`if train_class_layer: W_act = np.clip(W_act, 1e-10, np.inf)`; when the
action layer is not trained, `W_act` is left untouched. -/
def updateW_act (tcl : Bool) (W_act dW_act : Matrix (Fin h) (Fin a) ℚ) :
    Matrix (Fin h) (Fin a) ℚ :=
  if tcl then Matrix.of fun i j => clip10 ((W_act + dW_act) i j) else W_act

/-- One batch iteration's data relevant to the weight update: the episode
index it runs in and the two deltas produced by `learningStep`. -/
structure BatchStep (p q h a : ℕ) where
  e : ℕ
  dW_in : Matrix (Fin (p + 1)) (Fin q) ℚ
  dW_act : Matrix (Fin h) (Fin a) ℚ

/-- Folds the per-batch weight updates of hebbianRL.py:170-178 over a
sequence of batch iterations, starting from given weight matrices. -/
def trainSteps (nEpiCrit : ℕ) (lim_weights tcl : Bool)
    (steps : List (BatchStep p q h a))
    (W : Matrix (Fin (p + 1)) (Fin q) ℚ × Matrix (Fin h) (Fin a) ℚ) :
    Matrix (Fin (p + 1)) (Fin q) ℚ × Matrix (Fin h) (Fin a) ℚ :=
  steps.foldl (fun Ws s =>
    (updateW_in s.e nEpiCrit lim_weights Ws.1 s.dW_in,
     updateW_act tcl Ws.2 s.dW_act)) W

/-- Embeds the `W_act` data flow of one batch (hebbianRL.py:147-178):
during the critical period `disinhib_Act = dopa` (the critical-period dopa
signal, here an arbitrary vector); during the adult period
(`e >= nEpiCrit`) `disinhib_Act = np.zeros(nBatch)` (line 162); then
`dW_act = learningStep(bHidNeurons, bActNeurons, W_act, lr*1e-4,
disinhib_Act)` when the action layer is trained (line 167, `dW_act = 0.`
otherwise, line 98), followed by the update and clip of lines 175,178. -/
def batch_W_act (e nEpiCrit : ℕ) (tcl : Bool) (dopa_crit : Fin n → ℚ)
    (bHidNeurons : Matrix (Fin n) (Fin h) ℚ)
    (bActNeurons : Matrix (Fin n) (Fin a) ℚ)
    (W_act : Matrix (Fin h) (Fin a) ℚ) (lr : ℚ) : Matrix (Fin h) (Fin a) ℚ :=
  let disinhib_Act : Fin n → ℚ := if e < nEpiCrit then dopa_crit else fun _ => 0
  let dW_act : Matrix (Fin h) (Fin a) ℚ :=
    if tcl then
      learningStep bHidNeurons bActNeurons W_act (lr * (1 / 10 ^ 4)) disinhib_Act
    else 0
  updateW_act tcl W_act dW_act

theorem clipFloor_pos : (0 : ℚ) < clipFloor := by norm_num [clipFloor]

theorem updateW_in_floor (e nEpiCrit : ℕ) (lim_weights : Bool)
    (W_in dW_in : Matrix (Fin (p + 1)) (Fin q) ℚ) (i : Fin (p + 1)) (j : Fin q) :
    clipFloor ≤ updateW_in e nEpiCrit lim_weights W_in dW_in i j := by
  simp only [updateW_in, Matrix.of_apply, clip10]
  exact le_max_left _ _

theorem updateW_act_floor (tcl : Bool) (W_act dW_act : Matrix (Fin h) (Fin a) ℚ)
    (hW : ∀ i j, clipFloor ≤ W_act i j) (i : Fin h) (j : Fin a) :
    clipFloor ≤ updateW_act tcl W_act dW_act i j := by
  cases tcl with
  | false => simpa [updateW_act] using hW i j
  | true =>
    simp only [updateW_act, Matrix.of_apply, clip10, if_true]
    exact le_max_left _ _

theorem trainSteps_floor (nEpiCrit : ℕ) (lim_weights tcl : Bool)
    (steps : List (BatchStep p q h a))
    (W0 : Matrix (Fin (p + 1)) (Fin q) ℚ × Matrix (Fin h) (Fin a) ℚ)
    (h_in : ∀ i j, clipFloor ≤ W0.1 i j) (h_act : ∀ i j, clipFloor ≤ W0.2 i j) :
    (∀ i j, clipFloor ≤ (trainSteps nEpiCrit lim_weights tcl steps W0).1 i j) ∧
    (∀ i j, clipFloor ≤ (trainSteps nEpiCrit lim_weights tcl steps W0).2 i j) := by
  induction steps generalizing W0 with
  | nil => exact ⟨h_in, h_act⟩
  | cons s rest ih =>
    simp only [trainSteps, List.foldl_cons] at ih ⊢
    exact ih _ (fun i j => updateW_in_floor _ _ _ _ _ i j)
      (fun i j => updateW_act_floor _ _ _ h_act i j)

/-- C4: after the weight update of every batch (for any number of update
steps, any episode indices, and any deltas), every entry of `W_in` and of
`W_act` is strictly positive; moreover `W_in` is at least the clipping
floor `1e-10` as soon as one batch has run, and `W_act` stays at least the
floor it starts from (the floor is re-imposed by `np.clip` whenever the
action layer is trained, and `W_act` is untouched otherwise). -/
theorem weights_positive_invariant (nEpiCrit : ℕ) (lim_weights tcl : Bool)
    (steps : List (BatchStep p q h a))
    (W0 : Matrix (Fin (p + 1)) (Fin q) ℚ × Matrix (Fin h) (Fin a) ℚ)
    (h_in : ∀ i j, 0 < W0.1 i j) (h_act : ∀ i j, clipFloor ≤ W0.2 i j) :
    (∀ i j, 0 < (trainSteps nEpiCrit lim_weights tcl steps W0).1 i j) ∧
    (∀ i j, 0 < (trainSteps nEpiCrit lim_weights tcl steps W0).2 i j) ∧
    (steps ≠ [] →
      ∀ i j, clipFloor ≤ (trainSteps nEpiCrit lim_weights tcl steps W0).1 i j) := by
  cases steps with
  | nil =>
    refine ⟨fun i j => ?_, fun i j => ?_, fun hne => absurd rfl hne⟩
    · simpa [trainSteps] using h_in i j
    · simpa [trainSteps] using lt_of_lt_of_le clipFloor_pos (h_act i j)
  | cons s rest =>
    have hf := trainSteps_floor nEpiCrit lim_weights tcl rest
      (updateW_in s.e nEpiCrit lim_weights W0.1 s.dW_in,
       updateW_act tcl W0.2 s.dW_act)
      (fun i j => updateW_in_floor _ _ _ _ _ i j)
      (fun i j => updateW_act_floor _ _ _ h_act i j)
    have hstep : trainSteps nEpiCrit lim_weights tcl (s :: rest) W0 =
        trainSteps nEpiCrit lim_weights tcl rest
          (updateW_in s.e nEpiCrit lim_weights W0.1 s.dW_in,
           updateW_act tcl W0.2 s.dW_act) := by
      simp [trainSteps]
    rw [hstep]
    exact ⟨fun i j => lt_of_lt_of_le clipFloor_pos (hf.1 i j),
      fun i j => lt_of_lt_of_le clipFloor_pos (hf.2 i j),
      fun _ => hf.1⟩

/-- Witness for C4: one concrete batch step on 1x1 weight matrices starting
from all-ones weights leaves the input-layer weight strictly positive. -/
theorem weights_positive_invariant_witness :
    0 < (trainSteps 1 true true [⟨0, 0, 0⟩]
      (((Matrix.of fun _ _ => (1 : ℚ)) : Matrix (Fin (0 + 1)) (Fin 1) ℚ),
       ((Matrix.of fun _ _ => (1 : ℚ)) : Matrix (Fin 1) (Fin 1) ℚ))).1 0 0 :=
  (weights_positive_invariant 1 true true [⟨0, 0, 0⟩] _
    (fun i j => by norm_num)
    (fun i j => by norm_num [clipFloor])).1 0 0

theorem learningStep_zero_disinhib (P : Matrix (Fin b) (Fin p) ℚ)
    (Q : Matrix (Fin b) (Fin q) ℚ) (W : Matrix (Fin p) (Fin q) ℚ) (lr : ℚ) :
    learningStep P Q W lr (fun _ => 0) = 0 := by
  ext i j
  simp [learningStep, Matrix.mul_apply]

/-- C5: during the adult/perceptual period (`e >= nEpiCrit`), one batch of
the training loop leaves `W_act` exactly unchanged: the zero disinhibition
vector of hebbianRL.py:162 makes `learningStep` return a zero delta, and
the subsequent clip is the identity on weights already at or above the
clipping floor (which every post-clip `W_act` is). -/
theorem adult_period_W_act_frozen (e nEpiCrit : ℕ) (tcl : Bool)
    (dopa_crit : Fin n → ℚ) (bHidNeurons : Matrix (Fin n) (Fin h) ℚ)
    (bActNeurons : Matrix (Fin n) (Fin a) ℚ)
    (W_act : Matrix (Fin h) (Fin a) ℚ) (lr : ℚ)
    (h_adult : nEpiCrit ≤ e) (hW : ∀ i j, clipFloor ≤ W_act i j) :
    batch_W_act e nEpiCrit tcl dopa_crit bHidNeurons bActNeurons W_act lr =
      W_act := by
  have hlt : ¬ e < nEpiCrit := not_lt.2 h_adult
  cases tcl with
  | false => simp [batch_W_act, updateW_act]
  | true =>
    simp only [batch_W_act, hlt, if_false, if_true, learningStep_zero_disinhib,
      updateW_act]
    ext i j
    simp only [Matrix.of_apply, add_zero, Matrix.add_apply, Matrix.zero_apply,
      clip10]
    exact max_eq_right (hW i j)

/-- Witness for C5: a concrete adult-period batch (episode 5, critical
period of length 2) on 1x1 matrices leaves `W_act` unchanged. -/
theorem adult_period_W_act_frozen_witness :
    batch_W_act 5 2 true ![1]
      ((Matrix.of fun _ _ => (1 : ℚ)) : Matrix (Fin 1) (Fin 1) ℚ)
      ((Matrix.of fun _ _ => (1 : ℚ)) : Matrix (Fin 1) (Fin 1) ℚ)
      ((Matrix.of fun _ _ => (1 : ℚ)) : Matrix (Fin 1) (Fin 1) ℚ) (1 / 2) =
      ((Matrix.of fun _ _ => (1 : ℚ)) : Matrix (Fin 1) (Fin 1) ℚ) :=
  adult_period_W_act_frozen 5 2 true ![1] _ _ _ (1 / 2) (by norm_num)
    (fun i j => by norm_num [clipFloor])

/-- Number of batch iterations per episode: `range(int(nImages/nBatch))`
(hebbianRL.py:81), where `nImages = np.size(images,0)` is fixed once from
the run's `images` array (hebbianRL.py:43) — it is not recomputed from the
dataset actually sliced; Python 2 integer division on ints is floor
division. -/
def numBatches (nImages nBatch : ℕ) : ℕ := nImages / nBatch

/-- Embeds the batch selection `rndImages[b*nBatch:(b+1)*nBatch]`
(hebbianRL.py:91-92): Python slicing truncates at the sequence's end and
never raises. -/
def batchSlice (rnd : List α) (nBatch b : ℕ) : List α :=
  (rnd.drop (b * nBatch)).take nBatch

/-- The sequence of batches one episode processes (hebbianRL.py:75-92):
the loop count comes from `nImages`, the length of the run's `images`
array, while the slices are drawn from the per-episode-shuffled dataset
`rnd` — which is the shuffle of `images` under the digit protocol and
during gabor critical-period episodes, but of `images_task` during gabor
adult-period episodes (hebbianRL.py:77-78), whose length may differ from
`nImages`. -/
def episodeBatches (nImages : ℕ) (rnd : List α) (nBatch : ℕ) :
    List (List α) :=
  (List.range (numBatches nImages nBatch)).map (batchSlice rnd nBatch)

theorem batchSlice_flatten_range (rnd : List α) (nBatch k : ℕ) :
    ((List.range k).map (batchSlice rnd nBatch)).flatten =
      rnd.take (k * nBatch) := by
  induction k with
  | zero => simp
  | succ k ih =>
    rw [List.range_succ, List.map_append, List.flatten_append, ih,
      Nat.succ_mul, List.take_add]
    simp [batchSlice]

/-- Counterexample to C7 as stated: the batch count of hebbianRL.py:81 is
`int(nImages/nBatch)` with `nImages` fixed from the run's `images` array,
so a gabor adult-period episode whose shuffled task dataset has a
different length is not sliced into `⌊dataset size / nBatch⌋` batches.
With `nImages = 4`, a two-element shuffled task dataset `[0, 1]` and
`nBatch = 2`, two batches are processed where the claim's formula gives
one, and the second processed batch is the empty slice, not a contiguous
slice of the dataset of length `nBatch`. -/
theorem batch_count_not_from_sliced_dataset :
    (episodeBatches 4 [(0 : ℕ), 1] 2).length ≠ [(0 : ℕ), 1].length / 2 ∧
    batchSlice [(0 : ℕ), 1] 2 1 = [] := by decide

/-- C7 (amended): for every episode in which the per-episode-shuffled
dataset being sliced has the same length as the run's `images` array —
every episode under the digit protocol and every gabor critical-period
episode, and gabor adult-period episodes exactly when the task dataset has
that length — the episode processes `⌊nImages / nBatch⌋` batches, each a
contiguous slice of full length `nBatch` of the shuffled dataset; together
the batches are exactly the first `⌊nImages / nBatch⌋ * nBatch` elements,
so when `nBatch` equals the dataset size exactly one batch is processed,
and when it does not divide the dataset size the trailing remainder is
dropped (the embedding's slicing is total: nothing is raised). -/
theorem batch_partition_spec (nImages : ℕ) (rnd : List α) (nBatch : ℕ)
    (hB : 0 < nBatch) (hlen : rnd.length = nImages) :
    (episodeBatches nImages rnd nBatch).length = rnd.length / nBatch ∧
    (nBatch = rnd.length → (episodeBatches nImages rnd nBatch).length = 1) ∧
    (∀ b, b < numBatches nImages nBatch →
      (batchSlice rnd nBatch b).length = nBatch) ∧
    (episodeBatches nImages rnd nBatch).flatten =
      rnd.take (numBatches nImages nBatch * nBatch) := by
  subst hlen
  refine ⟨by simp [episodeBatches, numBatches], ?_, ?_, ?_⟩
  · intro hEq
    simp [episodeBatches, numBatches, ← hEq, Nat.div_self hB]
  · intro b hb
    have h1 : (b + 1) * nBatch ≤ rnd.length :=
      (Nat.le_div_iff_mul_le hB).1 (Nat.succ_le_of_lt hb)
    have h2 : b * nBatch + nBatch ≤ rnd.length := by
      simpa [Nat.succ_mul] using h1
    simp only [batchSlice, List.length_take, List.length_drop]
    omega
  · exact batchSlice_flatten_range rnd nBatch _

/-- Witness for C7's amended theorem: the five-element dataset
`[0,1,2,3,4]` (with `nImages = 5` matching its length) and batch size 2
yield batches that concatenate to `[0,1,2,3]`, dropping the trailing
remainder element. -/
theorem batch_partition_spec_witness :
    (episodeBatches 5 [0, 1, 2, 3, 4] 2).flatten = [0, 1, 2, 3] := by
  simpa [numBatches] using
    (batch_partition_spec 5 [(0 : ℕ), 1, 2, 3, 4] 2 (by decide)
      (by decide)).2.2.2

/-- A numpy array as passed to `shuffle` (external.py:372-393): the call
sites pass 1-dimensional (labels) and 2-dimensional (images) arrays of a
common first-dimension length `n`; the 2-dimensional arrays share the
column count `m`. -/
inductive NArr (n m : ℕ) where
  | d1 : (Fin n → ℚ) → NArr n m
  | d2 : (Fin n → Fin m → ℚ) → NArr n m

/-- Fancy indexing `a[rndIdx]` for a 1-dimensional array and `a[rndIdx,:]`
for a 2-dimensional one (external.py:388-391): row `i` of the result is
row `rndIdx[i]` of the input. -/
def reindex (rndIdx : Fin n → Fin n) : NArr n m → NArr n m
  | NArr.d1 a => NArr.d1 fun i => a (rndIdx i)
  | NArr.d2 a => NArr.d2 fun i j => a (rndIdx i) j

/-- Row `i` of an array, as the pairing-relevant content: a scalar for a
1-dimensional array, a row vector for a 2-dimensional one. -/
def arrRow : NArr n m → Fin n → ℚ ⊕ (Fin m → ℚ)
  | NArr.d1 a, i => Sum.inl (a i)
  | NArr.d2 a, i => Sum.inr (a i)

/-- Embeds `shuffle` (external.py:372-393): one index vector `rndIdx`, the
in-place shuffle of `np.arange(len(arrays[0]))`, is applied to every array
of the list in order; that `np.random.shuffle` produces a permutation of
the indices is the bijectivity hypothesis of the theorem below. -/
def shuffle (rndIdx : Fin n → Fin n) (arrays : List (NArr n m)) :
    List (NArr n m) :=
  arrays.map (reindex rndIdx)

/-- C10: `shuffle` applies one single common permutation to every array of
the list: the output has one array per input array, row `i` of every
output array is row `rndIdx i` of the corresponding input array (so the
element-wise pairing across arrays is exactly preserved), and each output
array's multiset of rows equals the corresponding input array's multiset
of rows (each output is a permutation of its input). -/
theorem shuffle_single_permutation (rndIdx : Fin n → Fin n)
    (hb : Function.Bijective rndIdx) (arrays : List (NArr n m)) :
    (shuffle rndIdx arrays).length = arrays.length ∧
    (∀ (k : ℕ) (a a' : NArr n m), arrays[k]? = some a →
      (shuffle rndIdx arrays)[k]? = some a' →
      (∀ i, arrRow a' i = arrRow a (rndIdx i)) ∧
      Multiset.map (arrRow a') Finset.univ.val =
        Multiset.map (arrRow a) Finset.univ.val) := by
  refine ⟨by simp [shuffle], ?_⟩
  intro k a a' ha ha'
  have ha2 : (shuffle rndIdx arrays)[k]? = some (reindex rndIdx a) := by
    simp [shuffle, List.getElem?_map, ha]
  rw [ha2] at ha'
  obtain rfl : reindex rndIdx a = a' := Option.some.inj ha'
  have hrow : ∀ i, arrRow (reindex rndIdx a) i = arrRow a (rndIdx i) := by
    intro i
    cases a <;> rfl
  refine ⟨hrow, ?_⟩
  have hmap : Multiset.map rndIdx Finset.univ.val = Finset.univ.val :=
    (Multiset.bijective_iff_map_univ_eq_univ rndIdx).1 hb
  calc Multiset.map (arrRow (reindex rndIdx a)) Finset.univ.val
      = Multiset.map (arrRow a ∘ rndIdx) Finset.univ.val :=
        Multiset.map_congr rfl (fun i _ => hrow i)
    _ = Multiset.map (arrRow a) (Multiset.map rndIdx Finset.univ.val) :=
        (Multiset.map_map _ _ _).symm
    _ = Multiset.map (arrRow a) Finset.univ.val := by rw [hmap]

/-- Witness for C10: the concrete transposition `[1, 0]` of two rows is a
permutation, and shuffling a one-array list keeps one array. -/
theorem shuffle_single_permutation_witness :
    (shuffle ![1, 0] [(NArr.d1 ![3, 7] : NArr 2 1)]).length = 1 :=
  (shuffle_single_permutation ![1, 0] (by decide)
    [(NArr.d1 ![3, 7] : NArr 2 1)]).1

/-- C1: the Hebbian weight update `learningStep(P, Q, W, lr, mod)` returns
exactly the matrix `Pᵗ·(Q⊙(lr·mod)) − W⊙colsum(Q⊙(lr·mod))` of the spec,
for every pre-synaptic batch P, post-synaptic batch Q, weight matrix W,
learning rate lr and per-example modulation vector mod. -/
theorem learningStep_eq_specFormula (P : Matrix (Fin b) (Fin p) ℚ)
    (Q : Matrix (Fin b) (Fin q) ℚ) (W : Matrix (Fin p) (Fin q) ℚ)
    (lr : ℚ) (mod : Fin b → ℚ) :
    learningStep P Q W lr mod = learningStep_specFormula P Q W lr mod := by
  ext i j
  simp [learningStep, learningStep_specFormula, Matrix.mul_apply,
    Matrix.sub_apply, Matrix.transpose_apply, mul_comm]

/-- C3: `compute_dopa` maps each example to exactly the configured scalar
of its outcome category — `dHigh` for mismatch-with-reward, `dMid` for
match-with-reward, `dNeut` for mismatch-without-reward, `dLow` for
match-without-reward — each example's output depending only on that
example's own (prediction-match, reward) pair; and when every example has
predicted action equal to the action taken and reward 1, every output
equals `dMid`. -/
theorem compute_dopa_outcome_table [DecidableEq α]
    (bPredictActions bActions : Fin n → α) (bReward : Fin n → ℤ)
    (dHigh dMid dNeut dLow : ℚ) :
    (∀ i, compute_dopa bPredictActions bActions bReward dHigh dMid dNeut dLow i =
      if bPredictActions i = bActions i then
        (if bReward i = 1 then dMid else if bReward i = 0 then dLow else 0)
      else
        (if bReward i = 1 then dHigh else if bReward i = 0 then dNeut else 0)) ∧
    ((∀ i, bPredictActions i = bActions i ∧ bReward i = 1) →
      ∀ i, compute_dopa bPredictActions bActions bReward dHigh dMid dNeut dLow i = dMid) := by
  constructor
  · intro i
    by_cases hp : bPredictActions i = bActions i <;>
      by_cases h1 : bReward i = 1 <;>
      by_cases h0 : bReward i = 0 <;>
      simp [compute_dopa, hp, h1, h0]
  · intro h i
    simp [compute_dopa, (h i).1, (h i).2]

/-- Witness for C3: a concrete batch in which example 0 predicts its own
action and is rewarded receives exactly `dMid = 2`. -/
theorem compute_dopa_outcome_table_witness :
    compute_dopa ![(3 : ℤ)] ![3] ![1] 4 2 (-1) (-2) 0 = 2 :=
  (compute_dopa_outcome_table ![(3 : ℤ)] ![3] ![1] 4 2 (-1) (-2)).2 (by decide) 0

/-- C8 evidence: `normalize` divides by the raw, unclipped pixel sum.  For
a batch whose image is all-zero the divisor is exactly 0 — no clipping or
stabilization happens before the division (in numpy this is `0/0`,
producing NaN; the embedding's total division then returns the additive
constant 1, masking the failure rather than preventing it). -/
theorem normalize_unguarded_zero_divisor :
    pixelSum (0 : Matrix (Fin 1) (Fin 2) ℚ) 0 = 0 ∧
    (∀ A : ℚ, ∀ j, normalize (0 : Matrix (Fin 1) (Fin 2) ℚ) A 0 j = 1) := by
  constructor
  · simp [pixelSum]
  · intro A j
    simp [normalize, pixelSum]

/-- C9 evidence: the validation helper `checkClassifier` would reject an
unrecognized classifier name with a descriptive error, but `RLnetwork`
never invokes it: its only pre-training use of the name
(`train_class_layer`, hebbianRL.py:46) treats the bad name as a trainable
configuration and the training loop runs in full; the first failure is the
post-training dispatch (hebbianRL.py:272-275), where no branch matches and
`allCMs` is left unbound. -/
theorem classifier_validation_not_wired :
    checkClassifier "perceptron" = Except.error
      "'perceptron' not a legal classifier value. Legal values are: 'neuronClass', 'SVM', 'actionNeurons'." ∧
    train_class_layer "perceptron" = true ∧
    classifierDispatch "perceptron" = none :=
  ⟨rfl, rfl, rfl⟩

/-- The row maximum `np.max(activ, 1)` (external.py:44); `np.max` errors on
an empty axis, so columns are indexed by `Fin (n + 1)`. -/
noncomputable def rowMax (activ : Matrix (Fin m) (Fin (n + 1)) ℝ) (i : Fin m) :
    ℝ :=
  Finset.univ.sup' Finset.univ_nonempty (activ i)

/-- Embeds the vectorial branch of `softmax` (external.py:43-46):
`activ_norm = activ - np.max(activ,1)[:,np.newaxis]`, then
`np.exp(activ_norm/t) / np.sum(np.exp(activ_norm/t), 1)[:,np.newaxis]`.
Real exponentiation models the float one without overflow, so the
stabilizing subtraction of the row maximum is visible in the definition
while NaN/Inf cannot arise in the embedding. -/
noncomputable def softmax_vec (activ : Matrix (Fin m) (Fin (n + 1)) ℝ)
    (t : ℝ) : Matrix (Fin m) (Fin (n + 1)) ℝ :=
  Matrix.of fun i j =>
    Real.exp ((activ i j - rowMax activ i) / t) /
      ∑ k, Real.exp ((activ i k - rowMax activ i) / t)

/-- Embeds `np.argmax` on one row: the first index attaining the maximum
(a later index replaces the running best only on a strictly larger
value). -/
noncomputable def firstArgmax (row : Fin (n + 1) → ℝ) : Fin (n + 1) :=
  (List.finRange (n + 1)).foldl
    (fun best j => if row best < row j then j else best) 0

/-- Embeds `np.argmin` on one row: the first index attaining the minimum. -/
noncomputable def firstArgmin (row : Fin (n + 1) → ℝ) : Fin (n + 1) :=
  (List.finRange (n + 1)).foldl
    (fun best j => if row j < row best then j else best) 0

/-- The overflow shift of the iterative branch (external.py:52-55):
`scale = I[np.argmax(I)] - 700` when the row maximum exceeds 700, else
`scale = 0`. -/
noncomputable def scaleOf (row : Fin (n + 1) → ℝ) : ℝ :=
  if 700 < row (firstArgmax row) then row (firstArgmax row) - 700 else 0

/-- Embeds one pass of the per-row loop of the iterative branch of
`softmax` (external.py:49-59): after computing the overflow shift, the
row's first minimal entry is raised to `-740 + scale` when it lies below
that bound (external.py:56-57), then the row is normalized by
`np.exp((I-scale)/t) / np.sum(np.exp((I-scale)/t))`. -/
noncomputable def softmax_iter_row (row : Fin (n + 1) → ℝ) (t : ℝ) :
    Fin (n + 1) → ℝ :=
  let scale := scaleOf row
  let I : Fin (n + 1) → ℝ :=
    if row (firstArgmin row) < -740 + scale then
      Function.update row (firstArgmin row) (-740 + scale)
    else row
  fun j => Real.exp ((I j - scale) / t) / ∑ k, Real.exp ((I k - scale) / t)

/-- Embeds the iterative branch of `softmax` (external.py:48-59): the
per-example loop filling `activ_SM[i,:]` row by row. -/
noncomputable def softmax_iter (activ : Matrix (Fin m) (Fin (n + 1)) ℝ)
    (t : ℝ) : Matrix (Fin m) (Fin (n + 1)) ℝ :=
  Matrix.of fun i => softmax_iter_row (activ i) t

/-- C2: every row of the vectorial softmax output sums to exactly 1 in
real arithmetic, for every pre-activation matrix (rows all equal, or with
very large values, included) and every positive temperature; the
definition subtracts the row maximum before exponentiating, exactly as the
source stabilizes against overflow. -/
theorem softmax_vec_rows_sum_to_one (activ : Matrix (Fin m) (Fin (n + 1)) ℝ)
    (t : ℝ) (ht : 0 < t) (i : Fin m) : ∑ j, softmax_vec activ t i j = 1 := by
  have hpos : 0 < ∑ k, Real.exp ((activ i k - rowMax activ i) / t) :=
    Finset.sum_pos (fun k _ => Real.exp_pos _) Finset.univ_nonempty
  simp only [softmax_vec, Matrix.of_apply]
  rw [← Finset.sum_div, div_self (ne_of_gt hpos)]

/-- Witness for C2: a concrete all-equal row of large values sums to 1 at
temperature 1. -/
theorem softmax_vec_rows_sum_to_one_witness :
    ∑ j, softmax_vec (!![800, 800] : Matrix (Fin 1) (Fin 2) ℝ) 1 0 j = 1 :=
  softmax_vec_rows_sum_to_one (!![800, 800] : Matrix (Fin 1) (Fin 2) ℝ) 1
    (by norm_num) 0

theorem softmax_shift (row : Fin (n + 1) → ℝ) (t c d : ℝ) (j : Fin (n + 1)) :
    Real.exp ((row j - c) / t) / ∑ k, Real.exp ((row k - c) / t) =
    Real.exp ((row j - d) / t) / ∑ k, Real.exp ((row k - d) / t) := by
  have key : ∀ e : ℝ,
      Real.exp ((row j - e) / t) / ∑ k, Real.exp ((row k - e) / t) =
      Real.exp (row j / t) / ∑ k, Real.exp (row k / t) := by
    intro e
    have hterm : ∀ x : ℝ, Real.exp ((x - e) / t) =
        Real.exp (x / t) * Real.exp (-(e / t)) := by
      intro x
      rw [← Real.exp_add]
      congr 1
      ring
    simp only [hterm]
    rw [← Finset.sum_mul]
    exact mul_div_mul_right _ _ (Real.exp_ne_zero _)
  rw [key c, key d]

/-- C6 (amended): the vectorial and the iterative evaluation strategies of
`softmax` agree, for every temperature, on every input whose rows never
trigger the iterative branch's underflow clamp, i.e. when every entry is
at least `-740` plus the row's overflow shift; normalization cancels the
different shifts the two branches subtract (row maximum vs `scale`). -/
theorem softmax_paths_agree_no_clamp (activ : Matrix (Fin m) (Fin (n + 1)) ℝ)
    (t : ℝ) (h : ∀ i j, -740 + scaleOf (activ i) ≤ activ i j) :
    softmax_vec activ t = softmax_iter activ t := by
  ext i j
  have hguard : ¬ activ i (firstArgmin (activ i)) < -740 + scaleOf (activ i) :=
    not_lt.2 (h i _)
  simp only [softmax_vec, softmax_iter, softmax_iter_row, Matrix.of_apply,
    hguard, if_false]
  exact softmax_shift (activ i) t (rowMax activ i) (scaleOf (activ i)) j

/-- Witness for C6's amended theorem: on the concrete row `[1, 2]` (no
clamp fires) the two branches agree at temperature 1. -/
theorem softmax_paths_agree_no_clamp_witness :
    softmax_vec (!![1, 2] : Matrix (Fin 1) (Fin 2) ℝ) 1 =
      softmax_iter (!![1, 2] : Matrix (Fin 1) (Fin 2) ℝ) 1 := by
  apply softmax_paths_agree_no_clamp
  intro i j
  have hall : ∀ k : Fin 2, (!![1, 2] : Matrix (Fin 1) (Fin 2) ℝ) i k ≤ 700 := by
    intro k
    fin_cases i <;> fin_cases k <;> norm_num
  have hscale : scaleOf ((!![1, 2] : Matrix (Fin 1) (Fin 2) ℝ) i) = 0 := by
    rw [scaleOf, if_neg (not_lt.2 (hall _))]
  rw [hscale]
  fin_cases i <;> fin_cases j <;> norm_num

/-- Counterexample to C6 as stated: on the single-row batch `[0, -1000]`
at temperature 1, the iterative branch raises the row minimum to `-740`
(external.py:56-57) while the vectorial branch does not, so the two
evaluation strategies disagree in exact real arithmetic. -/
theorem softmax_paths_differ_at_clamped_input :
    softmax_vec (!![0, -1000] : Matrix (Fin 1) (Fin 2) ℝ) 1 ≠
      softmax_iter (!![0, -1000] : Matrix (Fin 1) (Fin 2) ℝ) 1 := by
  set A : Matrix (Fin 1) (Fin 2) ℝ := !![0, -1000] with hA
  have hA00 : A 0 0 = 0 := by simp [hA]
  have hA01 : A 0 1 = -1000 := by simp [hA]
  have hmax : rowMax A 0 = 0 := by
    unfold rowMax
    apply le_antisymm
    · apply Finset.sup'_le
      intro b _
      fin_cases b <;> norm_num [hA]
    · have h0 := Finset.le_sup' (A 0) (Finset.mem_univ (0 : Fin 2))
      rwa [hA00] at h0
  have hvec : softmax_vec A 1 0 1 =
      Real.exp (-1000) / (Real.exp 0 + Real.exp (-1000)) := by
    simp only [softmax_vec, Matrix.of_apply, hmax, Fin.sum_univ_succ,
      Fin.sum_univ_one, Fin.succ_zero_eq_one, hA00, hA01]
    norm_num
  have hall : ∀ k : Fin 2, A 0 k ≤ 700 := by
    intro k
    fin_cases k <;> norm_num [hA]
  have hscale : scaleOf (A 0) = 0 := by
    rw [scaleOf, if_neg (not_lt.2 (hall _))]
  have hargmin : firstArgmin (A 0) = 1 := by
    have hrange : List.finRange 2 = [0, 1] := by decide
    rw [firstArgmin, hrange]
    simp only [List.foldl_cons, List.foldl_nil, lt_self_iff_false, if_false]
    rw [if_pos (by rw [hA00, hA01]; norm_num : A 0 1 < A 0 0)]
  have hguard : A 0 (firstArgmin (A 0)) < -740 + scaleOf (A 0) := by
    rw [hargmin, hscale, hA01]
    norm_num
  have hiter : softmax_iter A 1 0 1 =
      Real.exp (-740) / (Real.exp 0 + Real.exp (-740)) := by
    simp only [softmax_iter, softmax_iter_row, Matrix.of_apply]
    rw [if_pos hguard, hargmin, hscale]
    have hu0 : Function.update (A 0) 1 (-740 + 0) 0 = 0 := by
      rw [Function.update_noteq (by decide) _ _, hA00]
    have hu1 : Function.update (A 0) 1 (-740 + 0) 1 = -740 + 0 :=
      Function.update_same _ _ _
    rw [Fin.sum_univ_two, hu0, hu1]
    norm_num
  intro hEq
  have h01 := congrFun (congrFun hEq 0) 1
  rw [hvec, hiter] at h01
  have hlt : Real.exp (-1000) < Real.exp (-740) :=
    Real.exp_lt_exp.2 (by norm_num)
  have hp1 : 0 < Real.exp 0 + Real.exp (-1000) := by positivity
  have hp2 : 0 < Real.exp 0 + Real.exp (-740) := by positivity
  rw [div_eq_div_iff hp1.ne' hp2.ne'] at h01
  nlinarith [Real.exp_pos 0, hlt]

end HebRL
